import Mathlib

/-!
Verification development for the `arrange` repository (github.com/kcajmagic/arrange).

The Go source is shallowly embedded: pure functions become Lean functions,
pointer-mutating code becomes explicit state passing, the Go heap used by
`reflect.New` becomes an explicit list of cells, and Go's `error` results
become `Option Err` (with `multierr` aggregates modelled as lists).  Each
embedded definition carries a comment naming the Go source it translates.
-/

/-! ## A fragment of Go's type structure (package reflect)

`reflect.Type` is modelled by the fragment the repository exercises: base
(opaque) types identified by a number, defined ("named") types layered over
another type, slice types and array types.  `ConvertibleTo` is modelled on
the identical-underlying-type rule, which is the rule the source relies on
for adapting foreign middleware/option shapes (e.g. a named function type
versus its unnamed underlying function type). -/

inductive GoTy where
  | base : Nat → GoTy
  | named : Nat → GoTy → GoTy
  | slice : GoTy → GoTy
  | array : Nat → GoTy → GoTy
deriving DecidableEq

/-- The underlying type of a Go type: defined types defer to the type they
are declared over; composite and base types are their own underlying type. -/
def GoTy.underlying : GoTy → GoTy
  | .named _ u => u.underlying
  | .base n => .base n
  | .slice e => .slice e
  | .array n e => .array n e

inductive GoKind where
  | kslice | karray | kother
deriving DecidableEq

/-- reflect.Type.Kind, restricted to the kinds the embedded code inspects. -/
def GoTy.kind (t : GoTy) : GoKind :=
  match t.underlying with
  | .slice _ => .kslice
  | .array _ _ => .karray
  | _ => .kother

/-- reflect.Type.Elem for sequence types (via the underlying type, as for
defined slice/array types in Go); junk on non-sequences, which the embedded
code never consults. -/
def GoTy.elem (t : GoTy) : GoTy :=
  match t.underlying with
  | .slice e => e
  | .array _ e => e
  | u => u

/-- reflect.Type.ConvertibleTo, modelled on the fragment the source
exercises: a value converts iff the two types share an underlying type. -/
def convertibleTo (v t : GoTy) : Bool :=
  decide (v.underlying = t.underlying)

/-- A reflected Go value: a scalar with its type and an opaque payload. -/
structure GoScalar where
  ty : GoTy
  payload : Nat
deriving DecidableEq

/-- A reflected Go value as consumed by TryConvert: either a scalar or a
sequence (slice/array value) of scalar elements. -/
inductive GoV where
  | scalar : GoScalar → GoV
  | seq : GoTy → List GoScalar → GoV
deriving DecidableEq

/-- reflect.Value.Type of a modelled value. -/
def GoV.ty : GoV → GoTy
  | .scalar sc => sc.ty
  | .seq t _ => t

/-- The elements of a modelled sequence value (empty for scalars; the
embedded code only consults this under a sequence-kind guard). -/
def GoV.elems : GoV → List GoScalar
  | .scalar _ => []
  | .seq _ es => es

/-- reflect.Value.Convert for a scalar: the payload is retained, the type
becomes the conversion target. -/
def GoScalar.goConvert (sc : GoScalar) (t : GoTy) : GoScalar :=
  ⟨t, sc.payload⟩

/-- reflect.Value.Convert for a whole value. -/
def GoV.goConvert : GoV → GoTy → GoV
  | .scalar sc, t => .scalar (sc.goConvert t)
  | .seq _ es, t => .seq t es

/-- Whether a value's kind is Array or Slice, i.e. the source condition
`from.Kind() == reflect.Array || from.Kind() == reflect.Slice`. -/
def isSequenceKind (t : GoTy) : Bool :=
  decide (t.kind = GoKind.karray) || decide (t.kind = GoKind.kslice)

/-! ## TryConvert (src/unnamed/part_001 lines 309-353)

`TryConvert(src, cases...)` reflects src once and walks the case functions
in order.  Each case is represented by the type of its sole parameter
(`cf.Type().In(0)`).  The Go function invokes at most one case (a side
effect) and returns a Bool; the embedding returns `some (i, v)` when case
`i` is invoked with argument `v`, and `none` when no case matched, so that
the invocation is observable. -/

def tryConvertCases (src : GoV) (fromSequence : Bool) :
    Nat → List GoTy → Option (Nat × GoV)
  | _, [] => none
  | idx, dstTy :: rest =>
    if convertibleTo src.ty dstTy then
      -- first, try a direct conversion
      some (idx, src.goConvert dstTy)
    else if fromSequence && decide (dstTy.kind = GoKind.kslice)
        && convertibleTo src.ty.elem dstTy.elem then
      -- next, try to convert elements of one sequence into another
      -- NOTE (from the source): converting to arrays is not supported, only slices
      some (idx, GoV.seq dstTy (src.elems.map (fun e => e.goConvert dstTy.elem)))
    else
      tryConvertCases src fromSequence (idx + 1) rest

/-- TryConvert from src/unnamed/part_001: `some (i, v)` means the i-th case
function was invoked with argument `v` (the Go function then returns true);
`none` means no conversion was possible (the Go function returns false). -/
def TryConvert (src : GoV) (caseTys : List GoTy) : Option (Nat × GoV) :=
  tryConvertCases src (isSequenceKind src.ty) 0 caseTys

/-- A single case neither directly converts nor is eligible for the
element-wise sequence conversion: the condition under which the source's
loop moves on to the next case. -/
def caseMatches (fromSequence : Bool) (srcTy : GoTy) (c : GoTy) : Bool :=
  convertibleTo srcTy c
    || (fromSequence && decide (c.kind = GoKind.kslice) && convertibleTo srcTy.elem c.elem)

/-! ## Errors (go.uber.org/multierr as used by the repository)

A Go `error` is `Option Err`; an aggregate built by `multierr.Append` over a
loop is modelled as the `List Err` of the accumulated failures, where `[]`
plays the role of a nil error. -/

inductive Err where
  | emsg : String → Err
  | invalidServerOptionTypeError : GoTy → Err
  | multi : List Err → Err

/-- multierr.Combine: nil for no errors, the sole error for one, and an
aggregate for several. -/
def multierrCombine : List Err → Option Err
  | [] => none
  | [e] => some e
  | es => some (.multi es)

/-! ## http client options (src/arrangehttp/client.go)

`*http.Client` is opaque to the claims; its observable state is a Nat.  A
COption mutates the client through its pointer and may fail, so it is
embedded as `HClient → HClient × Option Err`. -/

abbrev HClient := Nat

abbrev COption := HClient → HClient × Option Err

/-- The option-application loop at the end of C.newClient
(src/arrangehttp/client.go lines 262-269):

    for _, co := range options {
      err = co(client)
      if err != nil {
        return nil, err
      }
    }
    return client, nil
-/
def newClientOptionLoop : List COption → HClient → Option HClient × Option Err
  | [], client => (some client, none)
  | co :: rest, client =>
    match co client with
    | (client2, none) => newClientOptionLoop rest client2
    | (_, some e) => (none, some e)

/-- C.newClient (src/arrangehttp/client.go lines 233-270).  `factory` is the
result of `f.NewClient()`; `injected` is the list of COptions collected from
the dependency structs in discovery order, and `locals` is `c.options`; the
source appends the local options after the injected ones and then runs the
application loop. -/
def newClient (factory : HClient × Option Err) (injected locals : List COption) :
    Option HClient × Option Err :=
  match factory with
  | (_, some e) => (none, some e)
  | (client, none) => newClientOptionLoop (injected ++ locals) client

/-- The closure body of C.Unmarshal (src/arrangehttp/client.go lines
294-326).  `errs` is the builder's accumulated error list `c.errs`;
`decodeResult` is the result of the decode collaborator
`in.Viper.Unmarshal(target.UnmarshalTo(), ...)`; `factory` stands for the
product-factory collaborator's result — the error path returns without
consulting it, which embeds "the factory is never invoked". -/
def unmarshalBody (errs : List Err) (decodeResult : Option Err)
    (factory : HClient × Option Err) (injected locals : List COption) :
    Option HClient × Option Err :=
  if errs.length > 0 then
    (none, multierrCombine errs)
  else
    match decodeResult with
    | some e => (none, some e)
    | none => newClient factory injected locals

/-! ## Generic options (src/unnamed/part_003)

`Option[T]` is a single fallible mutation of a `*T`; embedded as
`T → T × Option Err`.  `Options[T].Apply` and `ApplyOptions` each run every
option and aggregate the failures with `multierr.Append`; the aggregate is
the list of failures, `[]` standing for the nil error. -/

/-- Options[T].Apply (src/unnamed/part_003 lines 21-27). -/
def OptionsApply {T : Type} : List (T → T × Option Err) → T → T × List Err
  | [], t => (t, [])
  | opt :: rest, t =>
    let r := opt t
    let next := OptionsApply rest r.1
    (next.1, r.2.toList ++ next.2)

/-- ApplyOptions (src/unnamed/part_003 lines 50-56); the same loop as
Options[T].Apply, duplicated as in the source. -/
def ApplyOptions {T : Type} : List (T → T × Option Err) → T → T × List Err
  | [], t => (t, [])
  | o :: rest, t =>
    let r := o t
    let next := ApplyOptions rest r.1
    (next.1, r.2.toList ++ next.2)

/-! ## ServerOption and AsServerOption (src/unnamed/part_002 lines 14-110) -/

abbrev Server := Nat

abbrev ServerOption := Server → Server × Option Err

/-- The dynamic shapes AsServerOption distinguishes with its chain of type
assertions, in source order: a ServerOption implementation, a type with an
error-free `Apply(*http.Server)` method, a plain `func(*http.Server) error`,
a plain `func(*http.Server)`, and everything else (carrying its
reflect.Type, which is all the fallback consults). -/
inductive ServerOptionValue where
  | serverOption : ServerOption → ServerOptionValue
  | serverOptionNoError : (Server → Server) → ServerOptionValue
  | funcWithError : ServerOption → ServerOptionValue
  | funcNoError : (Server → Server) → ServerOptionValue
  | otherValue : GoTy → ServerOptionValue

/-- AsServerOption (src/unnamed/part_002 lines 84-110): the four supported
shapes are adapted to a ServerOption; anything else yields an option that
ignores the server and returns an InvalidServerOptionTypeError recording the
value's type. -/
def AsServerOption : ServerOptionValue → ServerOption
  | .serverOption so => so
  | .serverOptionNoError so => fun s => (so s, none)
  | .funcWithError f => f
  | .funcNoError f => fun s => (f s, none)
  | .otherValue t => fun s => (s, some (.invalidServerOptionTypeError t))

/-! ## Dependency (src/unnamed/part_001 lines 164-234) -/

/-- An injected value as seen by Dependency.Injected: only validity-adjacent
observables are modelled — an identity and whether reflect.Value.IsZero
holds. -/
structure GoVal where
  id : Nat
  isZero : Bool
deriving DecidableEq

/-- A struct tag, modelled by the three lookups the source performs
(`Tag.Get("name")`, `Tag.Get("group")`, `Tag.Get("optional")`). -/
structure StructTag where
  nameTag : String
  groupTag : String
  optionalTag : String
deriving DecidableEq, Inhabited

/-- Dependency (src/unnamed/part_001 lines 164-205).  Container is the
identifier of the declaring struct type, `none` for naked dependencies. -/
structure Dependency where
  Name : String
  Group : String
  Optional : Bool
  Tag : StructTag
  Container : Option Nat
  Value : GoVal

/-- Dependency.Injected (src/unnamed/part_001 lines 215-217):
`return !d.Optional || !d.Value.IsZero()`. -/
def Dependency.Injected (d : Dependency) : Bool :=
  !d.Optional || !d.Value.isZero

/-- strconv.ParseBool. -/
def parseBool : String → Option Bool
  | "1" => some true
  | "t" => some true
  | "T" => some true
  | "true" => some true
  | "TRUE" => some true
  | "True" => some true
  | "0" => some false
  | "f" => some false
  | "F" => some false
  | "false" => some false
  | "FALSE" => some false
  | "False" => some false
  | _ => none

/-- newFieldDependency (src/unnamed/part_001 lines 221-234); the ignored
ParseBool error leaves Optional false for unparsable or absent tags. -/
def newFieldDependency (c : Nat) (tag : StructTag) (fv : GoVal) : Dependency :=
  { Name := tag.nameTag
    Group := tag.groupTag
    Optional := (parseBool tag.optionalTag).getD false
    Tag := tag
    Container := some c
    Value := fv }

/-! ## Target and NewTarget (src/reflect.go lines 36-128; identical in
src/unnamed/part_001 lines 70-162)

`reflect.New` allocates fresh storage, so the embedding carries an explicit
heap: a list of struct-value cells addressed by position.  A prototype is a
struct value, or a (possibly nil) typed pointer into the heap. -/

/-- A struct value: the tuple of its field contents. -/
structure StructVal where
  fieldVals : List Nat
deriving DecidableEq

structure Heap where
  cells : List StructVal
deriving DecidableEq

/-- reflect.New: append a fresh cell, returning its address. -/
def Heap.alloc (h : Heap) (v : StructVal) : Heap × Nat :=
  (⟨h.cells ++ [v]⟩, h.cells.length)

def Heap.read (h : Heap) (a : Nat) : StructVal :=
  (h.cells.getD a ⟨[]⟩)

def Heap.write (h : Heap) (a : Nat) (v : StructVal) : Heap :=
  ⟨h.cells.set a v⟩

/-- The zero value of a struct type, as produced by reflect.New. -/
def StructVal.zeroLike (s : StructVal) : StructVal :=
  ⟨List.replicate s.fieldVals.length 0⟩

/-- A prototype as accepted by NewTarget: a struct value, or a pointer
(`none` = nil) whose pointee type has zero value `z`. -/
inductive Prototype where
  | value : StructVal → Prototype
  | pointer : (z : StructVal) → Option Nat → Prototype
deriving DecidableEq

/-- Target.Component: the same pointer as UnmarshalTo for pointer-shaped
prototypes, or the dereferenced storage for value-shaped prototypes. -/
inductive ComponentHandle where
  | byRef : Nat → ComponentHandle
  | byValue : Nat → ComponentHandle
deriving DecidableEq

/-- Target (src/reflect.go lines 43-52): UnmarshalTo is always a pointer
(an address). -/
structure Target where
  Component : ComponentHandle
  UnmarshalTo : Nat
deriving DecidableEq

/-- NewTarget (src/reflect.go lines 112-128).  Pointer prototypes allocate
zero storage of the pointee type and copy the pointee in when non-nil;
value prototypes allocate storage of the value's type and copy the value
in; Component aliases UnmarshalTo for pointers and dereferences it for
values. -/
def NewTarget (h : Heap) : Prototype → Heap × Target
  | .pointer z pa =>
    let out := h.alloc z
    match pa with
    | some a =>
      (out.1.write out.2 (out.1.read a), { Component := .byRef out.2, UnmarshalTo := out.2 })
    | none =>
      (out.1, { Component := .byRef out.2, UnmarshalTo := out.2 })
  | .value s =>
    let out := h.alloc s.zeroLike
    (out.1.write out.2 s, { Component := .byValue out.2, UnmarshalTo := out.2 })

/-! ## VisitFields (src/reflect.go lines 130-227)

The tree of reflected values a walk traverses: a non-struct leaf, a pointer
(possibly nil), or a struct with an ordered field list.  Field lists are a
mutual inductive rather than a `List` so that structural recursion and
definitional reduction are available. -/

/-- VisitResult (src/reflect.go lines 130-143). -/
inductive VisitResult where
  | VisitContinue
  | VisitSkip
  | VisitTerminate
deriving DecidableEq

/-- reflect.StructField metadata consulted by the walk: name, PkgPath
(empty iff exported) and Anonymous. -/
structure FieldInfo where
  name : String
  pkgPath : String
  anonymous : Bool
deriving DecidableEq

mutual
inductive RVal where
  | leaf : GoVal → RVal
  | ptr : Option RVal → RVal
  | strct : FieldList → RVal
inductive FieldList where
  | nil : FieldList
  | cons : FieldInfo → RVal → FieldList → FieldList
end

/-- reflect.Type.NumField/Field iteration source: the fields of a struct
value; non-structs expose no fields (Go would panic there — the walk only
reaches this for an embedded non-struct field, outside every claim's
domain). -/
def RVal.fieldsOf : RVal → FieldList
  | .strct fs => fs
  | _ => .nil

mutual
def RVal.size : RVal → Nat
  | .leaf _ => 1
  | .ptr none => 1
  | .ptr (some v) => 1 + RVal.size v
  | .strct fs => 1 + FieldList.size fs
def FieldList.size : FieldList → Nat
  | .nil => 0
  | .cons _ v rest => 1 + RVal.size v + FieldList.size rest
end

def stackSize (stack : List RVal) : Nat :=
  (stack.map RVal.size).sum

/-- The dereference prologue of VisitFields (src/reflect.go lines 187-199):
pointers are followed until a non-pointer is reached; a nil pointer or a
non-struct result makes the walk return an invalid value (`none`). -/
def derefRoot : RVal → Option RVal
  | .ptr none => none
  | .ptr (some v) => derefRoot v
  | .strct fs => some (.strct fs)
  | .leaf _ => none

/-- FieldVisitor (src/reflect.go line 146). -/
abbrev FieldVisitor := FieldInfo → RVal → VisitResult

/-- The field loop of VisitFields (src/reflect.go lines 210-223) over one
popped struct's fields: skips unexported fields, invokes the visitor on
each remaining field, stops the whole walk on VisitTerminate, and collects
the values of anonymous fields (unless VisitSkip) for pushing, in
declaration order.  Returns (visitor invocations in order, pushed values,
terminated?). -/
def fieldLoop (vis : FieldVisitor) : FieldList → List (FieldInfo × RVal) × List RVal × Bool
  | .nil => ([], [], false)
  | .cons f fv rest =>
    if f.pkgPath.length > 0 then
      -- NOTE: don't consider unexported fields
      fieldLoop vis rest
    else
      let r := vis f fv
      if r = VisitResult.VisitTerminate then
        ([(f, fv)], [], true)
      else
        let out := fieldLoop vis rest
        ((f, fv) :: out.1,
          (if f.anonymous = true ∧ r ≠ VisitResult.VisitSkip then fv :: out.2.1 else out.2.1),
          out.2.2)

theorem rval_size_pos : ∀ s : RVal, 0 < RVal.size s := by
  intro s
  cases s with
  | leaf _ => simp [RVal.size]
  | ptr o => cases o <;> simp [RVal.size]
  | strct fs => simp [RVal.size]

/-- Termination measure fact for the walk: the pushed values of one field
loop weigh no more than the field list they come from. -/
theorem fieldLoop_pushes_size (vis : FieldVisitor) :
    (fs : FieldList) → stackSize ((fieldLoop vis fs).2.1) ≤ FieldList.size fs
  | .nil => by simp [fieldLoop, stackSize, FieldList.size]
  | .cons f fv rest => by
    have ih := fieldLoop_pushes_size vis rest
    have hsz : FieldList.size (.cons f fv rest) = 1 + RVal.size fv + FieldList.size rest := rfl
    by_cases hp : f.pkgPath.length > 0
    · simp only [fieldLoop, if_pos hp]
      omega
    · by_cases ht : vis f fv = VisitResult.VisitTerminate
      · simp only [fieldLoop, if_neg hp, if_pos ht]
        simp [stackSize]
      · by_cases ha : f.anonymous = true ∧ vis f fv ≠ VisitResult.VisitSkip
        · simp only [fieldLoop, if_neg hp, if_neg ht, if_pos ha]
          simp only [stackSize, List.map_cons, List.sum_cons] at ih ⊢
          omega
        · simp only [fieldLoop, if_neg hp, if_neg ht, if_neg ha]
          omega

theorem fieldsOf_size_lt : ∀ s : RVal, FieldList.size s.fieldsOf < RVal.size s := by
  intro s
  cases s with
  | leaf _ => simp [RVal.fieldsOf, RVal.size, FieldList.size]
  | ptr o => cases o <;> simp [RVal.fieldsOf, RVal.size, FieldList.size]
  | strct fs => simp [RVal.fieldsOf, RVal.size]

/-- The stack loop of VisitFields (src/reflect.go lines 201-224), with the
stack kept top-first: the source pushes onto the end of its slice and pops
from the end, which corresponds here to consing the reversed push list onto
the remaining stack.  Returns the visitor invocations in order and whether
the walk was terminated by the visitor. -/
def walkLoop (vis : FieldVisitor) : List RVal → List (FieldInfo × RVal) × Bool
  | [] => ([], false)
  | s :: rest =>
    let out := fieldLoop vis s.fieldsOf
    if out.2.2 then (out.1, true)
    else
      let next := walkLoop vis (out.2.1.reverse ++ rest)
      (out.1 ++ next.1, next.2)
termination_by stack => stackSize stack
decreasing_by
  simp only [stackSize, List.map_append, List.sum_append, List.map_reverse, List.sum_reverse,
    List.map_cons, List.sum_cons]
  have h1 := fieldLoop_pushes_size vis s.fieldsOf
  have h2 := fieldsOf_size_lt s
  simp only [stackSize] at h1
  omega

/-- VisitFields (src/reflect.go lines 179-227): dereference the root; on
failure return an invalid handle (`none`) with no traversal; otherwise walk
and return the dereferenced root together with the instrumented trace of
visitor invocations. -/
def VisitFields (root : RVal) (vis : FieldVisitor) : Option RVal × List (FieldInfo × RVal) :=
  match derefRoot root with
  | none => (none, [])
  | some rv => (some rv, (walkLoop vis [rv]).1)

/-- The always-continue visitor used for a full walk. -/
def alwaysContinue : FieldVisitor := fun _ _ => VisitResult.VisitContinue

/-- The exported fields of a field list in declaration order: what one
field loop visits under the always-continue visitor. -/
def FieldList.visitedAll : FieldList → List (FieldInfo × RVal)
  | .nil => []
  | .cons f v rest =>
    (if f.pkgPath.length > 0 then [] else [(f, v)]) ++ FieldList.visitedAll rest

/-- The values of exported anonymous fields in declaration order: what one
field loop pushes under the always-continue visitor. -/
def FieldList.pushesAll : FieldList → List RVal
  | .nil => []
  | .cons f v rest =>
    (if f.pkgPath.length > 0 then [] else if f.anonymous = true then [v] else [])
      ++ FieldList.pushesAll rest

/-- The exported non-anonymous (leaf) fields of a field list, in
declaration order: the claim's "N leaf fields". -/
def FieldList.immediateLeaves : FieldList → List (FieldInfo × RVal)
  | .nil => []
  | .cons f v rest =>
    (if f.pkgPath.length > 0 then [] else if f.anonymous = true then [] else [(f, v)])
      ++ FieldList.immediateLeaves rest

mutual
/-- All leaf fields a full walk can reach from a value: the exported
non-anonymous fields plus, recursively, the leaves of exported anonymous
(embedded) struct fields; unexported fields contribute nothing. -/
def RVal.leaves : RVal → List (FieldInfo × RVal)
  | .strct fs => FieldList.leaves fs
  | .leaf _ => []
  | .ptr _ => []
def FieldList.leaves : FieldList → List (FieldInfo × RVal)
  | .nil => []
  | .cons f v rest =>
    (if f.pkgPath.length > 0 then []
     else if f.anonymous = true then RVal.leaves v
     else [(f, v)]) ++ FieldList.leaves rest
end

mutual
/-- Well-formedness matching the claim's premise: the value is a struct and
every exported anonymous field holds, recursively, such a struct (in Go an
embedded non-struct would make the walk panic). -/
def RVal.isStructWF : RVal → Bool
  | .strct fs => FieldList.wfFields fs
  | .leaf _ => false
  | .ptr _ => false
def FieldList.wfFields : FieldList → Bool
  | .nil => true
  | .cons f v rest =>
    (if f.pkgPath.length = 0 ∧ f.anonymous = true then RVal.isStructWF v else true)
      && FieldList.wfFields rest
end

/-! ## VisitDependencies (src/unnamed/part_001 lines 236-288)

An input value is either an injectable-parameter-block (a struct whose type
satisfies dig.IsIn, carrying a type identifier and its field list) or a
plain ("naked") value.  Field metadata records the skip conditions the
source tests and the field's struct tag. -/

/-- The per-field metadata VisitDependencies consults: PkgPath (unexported
check), reflect.Value.IsValid and CanInterface of the field value, whether
the field's type is the fx.In or fx.Out marker type, and the struct tag. -/
structure DepFieldInfo where
  pkgPath : String
  isValid : Bool
  canInterface : Bool
  isInType : Bool
  isOutType : Bool
  tag : StructTag
deriving DecidableEq

/-- The skip condition (src/unnamed/part_001 lines 267-274):
unexported, invalid, not interfaceable, or the fx.In/fx.Out marker field. -/
def DepFieldInfo.skipped (f : DepFieldInfo) : Bool :=
  decide (f.pkgPath.length > 0) || !f.isValid || !f.canInterface || f.isInType || f.isOutType

mutual
inductive DepNode where
  | plain : GoVal → DepNode
  | block : Nat → DepFieldList → DepNode
inductive DepFieldList where
  | nil : DepFieldList
  | cons : DepFieldInfo → DepNode → DepFieldList → DepFieldList
end

mutual
def DepNode.size : DepNode → Nat
  | .plain _ => 1
  | .block _ fs => 1 + DepFieldList.size fs
def DepFieldList.size : DepFieldList → Nat
  | .nil => 0
  | .cons _ v rest => 1 + DepNode.size v + DepFieldList.size rest
end

def depStackSize (stack : List DepNode) : Nat :=
  (stack.map DepNode.size).sum

/-- The naked dependency `Dependency{Value: dv}` passed to the visitor for
values that are not injectable-parameter-blocks. -/
def nakedDependency (g : GoVal) : Dependency :=
  { Name := "", Group := "", Optional := false, Tag := default,
    Container := none, Value := g }

/-- The field loop of VisitDependencies (src/unnamed/part_001 lines
263-282) over one popped container's fields: skipped fields are passed
over; block-typed fields are collected for pushing (declaration order);
other fields are delivered to the visitor as Dependencies, and a false
visitor verdict halts everything.  Returns (delivered Dependencies in
order, pushed blocks, halted?). -/
def depFieldLoop (vis : Dependency → Bool) (cty : Nat) :
    DepFieldList → List Dependency × List DepNode × Bool
  | .nil => ([], [], false)
  | .cons f node rest =>
    if f.skipped = true then
      -- NOTE: skip unexported fields or those whose value cannot be accessed
      depFieldLoop vis cty rest
    else
      match node with
      | .block b bfs =>
        -- this field is something that itself contains dependencies
        let out := depFieldLoop vis cty rest
        (out.1, DepNode.block b bfs :: out.2.1, out.2.2)
      | .plain g =>
        if vis (newFieldDependency cty f.tag g) = true then
          let out := depFieldLoop vis cty rest
          (newFieldDependency cty f.tag g :: out.1, out.2.1, out.2.2)
        else
          ([newFieldDependency cty f.tag g], [], true)

theorem depNode_size_pos : ∀ n : DepNode, 0 < DepNode.size n := by
  intro n
  cases n with
  | plain _ => simp [DepNode.size]
  | block _ fs => simp [DepNode.size]

/-- Termination measure fact: the blocks pushed by one field loop weigh no
more than the field list they come from. -/
theorem depFieldLoop_pushes_size (vis : Dependency → Bool) (cty : Nat) :
    (fs : DepFieldList) → depStackSize ((depFieldLoop vis cty fs).2.1) ≤ DepFieldList.size fs
  | .nil => by simp [depFieldLoop, depStackSize, DepFieldList.size]
  | .cons f node rest => by
    have ih := depFieldLoop_pushes_size vis cty rest
    have hsz : DepFieldList.size (.cons f node rest)
        = 1 + DepNode.size node + DepFieldList.size rest := rfl
    by_cases hp : f.skipped = true
    · simp only [depFieldLoop, if_pos hp]
      omega
    · cases node with
      | block b bfs =>
        simp only [depFieldLoop, if_neg hp]
        simp only [depStackSize, List.map_cons, List.sum_cons] at ih ⊢
        simp only [DepNode.size] at hsz ⊢
        omega
      | plain g =>
        by_cases hv : vis (newFieldDependency cty f.tag g) = true
        · simp only [depFieldLoop, if_neg hp, if_pos hv]
          omega
        · simp only [depFieldLoop, if_neg hp, if_neg hv]
          simp [depStackSize]

/-- The stack loop of VisitDependencies (src/unnamed/part_001 lines
255-283), with the stack kept top-first as in `walkLoop` (the source pushes
at the end of its slice and pops from the end).  Only blocks are ever
pushed; a plain value on the stack exposes no fields.  Returns the
delivered Dependencies in order and whether the visitor halted. -/
def depStack (vis : Dependency → Bool) : List DepNode → List Dependency × Bool
  | [] => ([], false)
  | DepNode.block cty bfs :: rest =>
    let out := depFieldLoop vis cty bfs
    if out.2.2 then (out.1, true)
    else
      let next := depStack vis (out.2.1.reverse ++ rest)
      (out.1 ++ next.1, next.2)
  | DepNode.plain _ :: rest => depStack vis rest
termination_by stack => depStackSize stack
decreasing_by
  · simp only [depStackSize, List.map_append, List.sum_append, List.map_reverse,
      List.sum_reverse, List.map_cons, List.sum_cons]
    have h1 := depFieldLoop_pushes_size vis cty bfs
    simp only [depStackSize] at h1
    simp only [DepNode.size]
    omega
  · simp only [depStackSize, List.map_cons, List.sum_cons, DepNode.size]
    omega

/-- VisitDependencies (src/unnamed/part_001 lines 251-288): blocks are
walked with the stack loop; other values are delivered as naked
Dependencies; a false visitor verdict returns from the whole function,
halting across all remaining inputs.  Returns the instrumented trace of
deliveries and whether the visitor halted. -/
def VisitDependencies (vis : Dependency → Bool) : List DepNode → List Dependency × Bool
  | [] => ([], false)
  | DepNode.block cty bfs :: rest =>
    -- for any structs that embed fx.In, recursively visit their fields
    let out := depStack vis [DepNode.block cty bfs]
    if out.2 then (out.1, true)
    else
      let next := VisitDependencies vis rest
      (out.1 ++ next.1, next.2)
  | DepNode.plain g :: rest =>
    -- a "naked" dependency
    if vis (nakedDependency g) = true then
      let next := VisitDependencies vis rest
      (nakedDependency g :: next.1, next.2)
    else
      ([nakedDependency g], true)

/-! ## List/heap helper lemmas -/

theorem list_getD_set_eq (l : List StructVal) :
    ∀ (n : Nat) (v d : StructVal), n < l.length → (l.set n v).getD n d = v := by
  induction l with
  | nil => intro n v d hn; simp at hn
  | cons x xs ih =>
    intro n v d hn
    cases n with
    | zero => simp [List.getD]
    | succ m =>
      have hm : m < xs.length := by simpa using hn
      simpa [List.getD] using ih m v d hm

theorem list_getD_set_ne (l : List StructVal) :
    ∀ (a b : Nat) (v d : StructVal), a ≠ b → (l.set a v).getD b d = l.getD b d := by
  induction l with
  | nil => intro a b v d hab; simp
  | cons x xs ih =>
    intro a b v d hab
    cases a with
    | zero =>
      cases b with
      | zero => exact absurd rfl hab
      | succ bm => simp [List.getD]
    | succ am =>
      cases b with
      | zero => simp [List.getD]
      | succ bm =>
        have : am ≠ bm := fun hc => hab (by simp [hc])
        simpa [List.getD] using ih am bm v d this

theorem list_getD_append_lt (l l2 : List StructVal) :
    ∀ (n : Nat) (d : StructVal), n < l.length → (l ++ l2).getD n d = l.getD n d := by
  induction l with
  | nil => intro n d hn; simp at hn
  | cons x xs ih =>
    intro n d hn
    cases n with
    | zero => simp [List.getD]
    | succ m =>
      have hm : m < xs.length := by simpa using hn
      simp only [List.cons_append, List.getD_cons_succ]
      exact ih m d hm

theorem list_getD_append_self (l : List StructVal) :
    ∀ (v d : StructVal), (l ++ [v]).getD l.length d = v := by
  induction l with
  | nil => intro v d; simp [List.getD]
  | cons x xs ih =>
    intro v d
    simp only [List.cons_append, List.length_cons, List.getD_cons_succ]
    exact ih v d

/-! ## Claim theorems -/

/-- Claim C8: Dependency.Injected returns true iff it is not the case that
both Optional is true and Value holds its type's zero value. -/
theorem c8_injected_iff (d : Dependency) :
    d.Injected = true ↔ ¬(d.Optional = true ∧ d.Value.isZero = true) := by
  rcases d with ⟨n, g, o, tg, c, v⟩
  rcases v with ⟨i, z⟩
  cases o <;> cases z <;> simp [Dependency.Injected]

/-- Claim C10: the empty option sequence is an identity: applying an empty
Options[T] (and calling ApplyOptions with zero options) returns a nil error
and leaves the target unchanged. -/
theorem c10_empty_options_identity (T : Type) (t : T) :
    OptionsApply [] t = (t, []) ∧ ApplyOptions [] t = (t, []) :=
  ⟨rfl, rfl⟩

/-- Claim C9: AsServerOption handles every input shape without panicking:
each of the four supported shapes is adapted to an option with the source's
wrapping, and any other value yields an option that leaves the server
unchanged and returns an InvalidServerOptionTypeError carrying precisely
the input value's type. -/
theorem c9_asServerOption_total :
    (∀ (t : GoTy) (s : Server),
        AsServerOption (.otherValue t) s = (s, some (Err.invalidServerOptionTypeError t)))
    ∧ (∀ so : ServerOption, AsServerOption (.serverOption so) = so)
    ∧ (∀ (f : Server → Server) (s : Server),
        AsServerOption (.serverOptionNoError f) s = (f s, none))
    ∧ (∀ f : ServerOption, AsServerOption (.funcWithError f) = f)
    ∧ (∀ (f : Server → Server) (s : Server),
        AsServerOption (.funcNoError f) s = (f s, none)) :=
  ⟨fun _ _ => rfl, fun _ => rfl, fun _ _ => rfl, fun _ => rfl, fun _ _ => rfl⟩

/-- Claim C4: when the decode collaborator fails (and no builder
accumulation errors exist, so decoding is reached), the synthesized
constructor returns a nil product together with exactly the decode error;
the result does not depend on the product-factory collaborator, which
embeds that construction is never attempted. -/
theorem c4_decode_error_short_circuits
    (e : Err) (factory : HClient × Option Err) (injected locals : List COption) :
    unmarshalBody [] (some e) factory injected locals = (none, some e) :=
  rfl

/-- Claim C1, counterexample: with one injected failing option and one
local option, C.newClient returns the first failure alone, not an
aggregate; the result is identical whether the local option fails or
succeeds, so the local option is never attempted and its failure is never
combined — contradicting "every option is attempted and all failures are
aggregated into one combined error". -/
theorem c1_counterexample :
    newClient (0, none)
        [fun c => (c + 1, some (Err.emsg "injected failure"))]
        [fun c => (c + 1, some (Err.emsg "local failure"))]
      = (none, some (Err.emsg "injected failure"))
    ∧ newClient (0, none)
        [fun c => (c + 1, some (Err.emsg "injected failure"))]
        [fun c => (c + 1, none)]
      = (none, some (Err.emsg "injected failure"))
    ∧ Err.emsg "injected failure"
        ≠ Err.multi [Err.emsg "injected failure", Err.emsg "local failure"] :=
  ⟨rfl, rfl, by simp⟩

/-- Claim C1, amended: C.newClient applies the injected options followed by
the locally registered options, in order, and stops at the first failing
option: the product is discarded (nil is returned) together with exactly
that first error, independently of any later options; only when every
option succeeds is the fully modified product returned with a nil error. -/
theorem c1_newClient_option_application :
    (∀ (client client2 : HClient) (co : COption) (rest : List COption) (e : Err),
        co client = (client2, some e) →
        newClientOptionLoop (co :: rest) client = (none, some e))
    ∧ (∀ (client client2 : HClient) (co : COption) (rest : List COption),
        co client = (client2, none) →
        newClientOptionLoop (co :: rest) client = newClientOptionLoop rest client2)
    ∧ (∀ client : HClient, newClientOptionLoop [] client = (some client, none))
    ∧ (∀ (client : HClient) (injected locals : List COption),
        newClient (client, none) injected locals
          = newClientOptionLoop (injected ++ locals) client)
    ∧ (∀ (client : HClient) (e : Err) (injected locals : List COption),
        newClient (client, some e) injected locals = (none, some e)) := by
  refine ⟨?_, ?_, ?_, ?_, ?_⟩
  · intro client client2 co rest e hco
    simp [newClientOptionLoop, hco]
  · intro client client2 co rest hco
    simp [newClientOptionLoop, hco]
  · intro client; rfl
  · intro client injected locals; rfl
  · intro client e injected locals; rfl

/-- Witness for C1's amended theorem at a concrete failing option. -/
theorem c1_witness :
    newClientOptionLoop
        [fun c => (c + 1, some (Err.emsg "first")), fun c => (c + 2, some (Err.emsg "second"))] 0
      = (none, some (Err.emsg "first")) :=
  c1_newClient_option_application.1 0 1 _ _ (Err.emsg "first") rfl

/-- Claim C3: NewTarget always hands back freshly allocated storage as
UnmarshalTo; for a non-nil pointer prototype the pointee is copied into the
fresh cell and Component is the same pointer; and writing through
UnmarshalTo never changes the original prototype's pointee. -/
theorem c3_newTarget_fresh_copy_no_alias (h : Heap) (z s : StructVal) (a : Nat) :
    ((NewTarget h (.value s)).2.UnmarshalTo = h.cells.length
      ∧ (NewTarget h (.value s)).1.read h.cells.length = s
      ∧ (NewTarget h (.value s)).2.Component = .byValue h.cells.length)
    ∧ ((NewTarget h (.pointer z none)).2.UnmarshalTo = h.cells.length
      ∧ (NewTarget h (.pointer z none)).1.read h.cells.length = z
      ∧ (NewTarget h (.pointer z none)).2.Component = .byRef h.cells.length)
    ∧ ((NewTarget h (.pointer z (some a))).2.UnmarshalTo = h.cells.length
      ∧ (NewTarget h (.pointer z (some a))).2.Component = .byRef h.cells.length)
    ∧ (a < h.cells.length →
        (NewTarget h (.pointer z (some a))).1.read h.cells.length = h.read a
        ∧ ∀ v : StructVal,
            ((NewTarget h (.pointer z (some a))).1.write h.cells.length v).read a
              = h.read a) := by
  have hlen : h.cells.length < (h.cells ++ [z]).length := by simp
  refine ⟨⟨rfl, ?_, rfl⟩, ⟨rfl, ?_, rfl⟩, ⟨rfl, rfl⟩, ?_⟩
  · simp only [NewTarget, Heap.alloc, Heap.write, Heap.read]
    rw [list_getD_set_eq _ _ _ _ (by simp)]
  · simp only [NewTarget, Heap.alloc, Heap.read]
    rw [list_getD_append_self]
  · intro ha
    have hne : h.cells.length ≠ a := (Nat.ne_of_lt ha).symm
    constructor
    · simp only [NewTarget, Heap.alloc, Heap.write, Heap.read]
      rw [list_getD_set_eq _ _ _ _ hlen, list_getD_append_lt _ _ _ _ ha]
    · intro v
      simp only [NewTarget, Heap.alloc, Heap.write, Heap.read]
      rw [list_getD_set_ne _ _ _ _ _ hne, list_getD_set_ne _ _ _ _ _ hne,
        list_getD_append_lt _ _ _ _ ha]

/-- Witness for C3 at a one-cell heap with a non-nil pointer prototype. -/
theorem c3_witness :
    (NewTarget ⟨[⟨[7, 8]⟩]⟩ (.pointer ⟨[0, 0]⟩ (some 0))).1.read 1
        = Heap.read ⟨[⟨[7, 8]⟩]⟩ 0
    ∧ ∀ v : StructVal,
        ((NewTarget ⟨[⟨[7, 8]⟩]⟩ (.pointer ⟨[0, 0]⟩ (some 0))).1.write 1 v).read 0
          = Heap.read ⟨[⟨[7, 8]⟩]⟩ 0 := by
  have hmain := (c3_newTarget_fresh_copy_no_alias ⟨[⟨[7, 8]⟩]⟩ ⟨[0, 0]⟩ ⟨[]⟩ 0).2.2.2
    (by decide)
  exact hmain

/-- Claim C2, counterexample: the candidate is a slice of a named type and
the single case's parameter is an array of another named type over the same
base; direct conversion fails, both sides are sequences, and every element
converts, yet TryConvert reports no match (the source only attempts
element-wise conversion when the case's parameter type is a slice, never an
array), so the case is not invoked — the claim's conclusion fails. -/
theorem c2_counterexample :
    convertibleTo (GoV.seq (GoTy.slice (GoTy.named 1 (GoTy.base 0))) [⟨GoTy.named 1 (GoTy.base 0), 5⟩]).ty
        (GoTy.array 1 (GoTy.named 2 (GoTy.base 0))) = false
    ∧ isSequenceKind (GoTy.slice (GoTy.named 1 (GoTy.base 0))) = true
    ∧ isSequenceKind (GoTy.array 1 (GoTy.named 2 (GoTy.base 0))) = true
    ∧ convertibleTo (GoTy.slice (GoTy.named 1 (GoTy.base 0))).elem
        (GoTy.array 1 (GoTy.named 2 (GoTy.base 0))).elem = true
    ∧ TryConvert (GoV.seq (GoTy.slice (GoTy.named 1 (GoTy.base 0))) [⟨GoTy.named 1 (GoTy.base 0), 5⟩])
        [GoTy.array 1 (GoTy.named 2 (GoTy.base 0))] = none := by
  refine ⟨by decide, by decide, by decide, by decide, by decide⟩

/-- Claim C2, amended: if direct conversion of the candidate to a case's
parameter type fails, the candidate describes a sequence (array or slice),
and the case's parameter type is a slice (conversion to array parameters is
not attempted), then element-wise conversion is attempted; if the element
types convert, a new slice of the case's element type is built, that case
is invoked with it, and a match is reported with no later case tried; all
earlier non-matching cases are skipped. -/
theorem c2_elementwise_slice_conversion
    (src : GoV) (pre rest : List GoTy) (dstTy : GoTy)
    (hpre : pre.all (fun c => !(caseMatches (isSequenceKind src.ty) src.ty c)) = true)
    (hseq : isSequenceKind src.ty = true)
    (hdirect : convertibleTo src.ty dstTy = false)
    (hslice : dstTy.kind = GoKind.kslice)
    (helem : convertibleTo src.ty.elem dstTy.elem = true) :
    TryConvert src (pre ++ dstTy :: rest)
      = some (pre.length, GoV.seq dstTy (src.elems.map (fun e => e.goConvert dstTy.elem))) := by
  have hskip : ∀ (l : List GoTy) (i : Nat),
      l.all (fun c => !(caseMatches (isSequenceKind src.ty) src.ty c)) = true →
      ∀ tail : List GoTy,
        tryConvertCases src (isSequenceKind src.ty) i (l ++ tail)
          = tryConvertCases src (isSequenceKind src.ty) (i + l.length) tail := by
    intro l
    induction l with
    | nil => intro i _ tail; simp
    | cons c cs ih =>
      intro i hall tail
      rw [List.all_cons, Bool.and_eq_true] at hall
      obtain ⟨hhead, hall2⟩ := hall
      have hc : caseMatches (isSequenceKind src.ty) src.ty c = false := by
        simpa using hhead
      rw [caseMatches, Bool.or_eq_false_iff] at hc
      obtain ⟨hc1, hc2⟩ := hc
      calc tryConvertCases src (isSequenceKind src.ty) i ((c :: cs) ++ tail)
          = tryConvertCases src (isSequenceKind src.ty) (i + 1) (cs ++ tail) := by
            simp [tryConvertCases, hc1, hc2]
        _ = tryConvertCases src (isSequenceKind src.ty) ((i + 1) + cs.length) tail :=
            ih (i + 1) hall2 tail
        _ = tryConvertCases src (isSequenceKind src.ty) (i + (c :: cs).length) tail := by
            simp [List.length_cons]; ring_nf
  unfold TryConvert
  rw [hskip pre 0 hpre (dstTy :: rest)]
  simp [tryConvertCases, hdirect, hseq, hslice, helem]

/-- Witness for C2's amended theorem: a slice of a named function type is
adapted to a case taking a slice of a differently named type over the same
underlying type, after one non-matching case. -/
theorem c2_witness :
    TryConvert (GoV.seq (GoTy.slice (GoTy.named 1 (GoTy.base 0))) [⟨GoTy.named 1 (GoTy.base 0), 5⟩])
        [GoTy.base 9, GoTy.slice (GoTy.named 2 (GoTy.base 0)), GoTy.base 3]
      = some (1, GoV.seq (GoTy.slice (GoTy.named 2 (GoTy.base 0)))
          [⟨GoTy.named 2 (GoTy.base 0), 5⟩]) := by
  have h := c2_elementwise_slice_conversion
    (GoV.seq (GoTy.slice (GoTy.named 1 (GoTy.base 0))) [⟨GoTy.named 1 (GoTy.base 0), 5⟩])
    [GoTy.base 9] [GoTy.base 3] (GoTy.slice (GoTy.named 2 (GoTy.base 0)))
    (by decide) (by decide) (by decide) (by decide) (by decide)
  simpa using h

/-! ## Walk lemmas for C5, C6 and C7 -/

theorem mem_dropLast_append {α : Type} (p : α) :
    ∀ (a b : List α), p ∈ (a ++ b).dropLast → p ∈ a ∨ p ∈ b.dropLast := by
  intro a
  induction a with
  | nil => intro b h; exact Or.inr (by simpa using h)
  | cons x xs ih =>
    intro b h
    rw [List.cons_append] at h
    cases hxb : xs ++ b with
    | nil => rw [hxb] at h; simp at h
    | cons y l =>
      rw [hxb] at h
      rw [show (x :: y :: l).dropLast = x :: (y :: l).dropLast from rfl] at h
      rcases List.mem_cons.mp h with h1 | h2
      · exact Or.inl (by simp [h1])
      · rw [← hxb] at h2
        rcases ih b h2 with h3 | h4
        · exact Or.inl (List.mem_cons_of_mem x h3)
        · exact Or.inr h4

/-- Behavior of one field loop with respect to termination: when the loop
did not terminate, every visited field got a non-terminate directive; when
it terminated, the trace is nonempty and only its last entry can carry the
terminate directive. -/
theorem fieldLoop_spec (vis : FieldVisitor) : (fs : FieldList) →
    (((fieldLoop vis fs).2.2 = false →
      ∀ p ∈ (fieldLoop vis fs).1, vis p.1 p.2 ≠ VisitResult.VisitTerminate)
    ∧ ((fieldLoop vis fs).2.2 = true → (fieldLoop vis fs).1 ≠ [])
    ∧ ((fieldLoop vis fs).2.2 = true →
      ∀ p ∈ (fieldLoop vis fs).1.dropLast, vis p.1 p.2 ≠ VisitResult.VisitTerminate))
  | .nil => by
    refine ⟨?_, ?_, ?_⟩ <;> intro h <;> simp_all [fieldLoop]
  | .cons f fv rest => by
    have ih := fieldLoop_spec vis rest
    by_cases hp : f.pkgPath.length > 0
    · simpa [fieldLoop, hp] using ih
    · by_cases ht : vis f fv = VisitResult.VisitTerminate
      · refine ⟨?_, ?_, ?_⟩
        · intro h; simp [fieldLoop, hp, ht] at h
        · intro _; simp [fieldLoop, hp, ht]
        · intro _; simp [fieldLoop, hp, ht]
      · refine ⟨?_, ?_, ?_⟩
        · intro h p hmem
          simp only [fieldLoop, if_neg hp, if_neg ht] at h hmem
          rcases List.mem_cons.mp hmem with h1 | h2
          · rw [h1]; exact ht
          · exact ih.1 h p h2
        · intro h
          simp only [fieldLoop, if_neg hp, if_neg ht] at h ⊢
          simp
        · intro h p hmem
          simp only [fieldLoop, if_neg hp, if_neg ht] at h hmem
          have hne : (fieldLoop vis rest).1 ≠ [] := ih.2.1 h
          rw [show ((f, fv) :: (fieldLoop vis rest).1).dropLast
              = (f, fv) :: (fieldLoop vis rest).1.dropLast from by
            cases hc : (fieldLoop vis rest).1 with
            | nil => exact absurd hc hne
            | cons q qs => rfl] at hmem
          rcases List.mem_cons.mp hmem with h1 | h2
          · rw [h1]; exact ht
          · exact ih.2.2 h p h2

/-- Behavior of the walk's stack loop with respect to termination, by
strong induction on the stack measure: when the walk was not terminated no
visited field got the terminate directive, and when it was, only the last
visited field can have. -/
theorem walkLoop_spec (vis : FieldVisitor) :
    ∀ (n : Nat) (stack : List RVal), stackSize stack ≤ n →
    (((walkLoop vis stack).2 = false →
      ∀ p ∈ (walkLoop vis stack).1, vis p.1 p.2 ≠ VisitResult.VisitTerminate)
    ∧ ((walkLoop vis stack).2 = true →
      ∀ p ∈ (walkLoop vis stack).1.dropLast, vis p.1 p.2 ≠ VisitResult.VisitTerminate)) := by
  intro n
  induction n with
  | zero =>
    intro stack hsz
    cases stack with
    | nil => constructor <;> intro _ <;> simp [walkLoop]
    | cons s rest =>
      exfalso
      have := rval_size_pos s
      simp [stackSize] at hsz
      omega
  | succ n ih =>
    intro stack hsz
    cases stack with
    | nil => constructor <;> intro _ <;> simp [walkLoop]
    | cons s rest =>
      by_cases hterm : (fieldLoop vis s.fieldsOf).2.2 = true
      · have heq : walkLoop vis (s :: rest) = ((fieldLoop vis s.fieldsOf).1, true) := by
          simp [walkLoop, hterm]
        constructor
        · intro hfalse; rw [heq] at hfalse; simp at hfalse
        · intro _
          rw [heq]
          exact (fieldLoop_spec vis s.fieldsOf).2.2 hterm
      · have hterm2 : (fieldLoop vis s.fieldsOf).2.2 = false := by simpa using hterm
        have hsz2 : stackSize ((fieldLoop vis s.fieldsOf).2.1.reverse ++ rest) ≤ n := by
          have h1 := fieldLoop_pushes_size vis s.fieldsOf
          have h2 := fieldsOf_size_lt s
          simp only [stackSize, List.map_append, List.sum_append, List.map_reverse,
            List.sum_reverse, List.map_cons, List.sum_cons] at hsz ⊢
          simp only [stackSize] at h1
          omega
        have ihr := ih ((fieldLoop vis s.fieldsOf).2.1.reverse ++ rest) hsz2
        have heq : walkLoop vis (s :: rest)
            = ((fieldLoop vis s.fieldsOf).1
                ++ (walkLoop vis ((fieldLoop vis s.fieldsOf).2.1.reverse ++ rest)).1,
              (walkLoop vis ((fieldLoop vis s.fieldsOf).2.1.reverse ++ rest)).2) := by
          simp [walkLoop, hterm2]
        constructor
        · intro hfalse p hmem
          rw [heq] at hfalse hmem
          simp only at hfalse
          rcases List.mem_append.mp (by simpa using hmem) with h1 | h2
          · exact (fieldLoop_spec vis s.fieldsOf).1 hterm2 p h1
          · exact ihr.1 hfalse p h2
        · intro htrue p hmem
          rw [heq] at htrue hmem
          simp only at htrue hmem
          rcases mem_dropLast_append p _ _ hmem with h1 | h2
          · exact (fieldLoop_spec vis s.fieldsOf).1 hterm2 p h1
          · exact ihr.2 htrue p h2

/-- Claim C6: for every struct root and visitor, once the visitor returns
the terminate directive on some field, no later field is visited (in the
instrumented trace only the final entry can carry terminate); and
VisitFields returns the dereferenced root handle, or an explicitly invalid
handle when the initial dereference failed. -/
theorem c6_terminate_halts_and_returns_root (root : RVal) (vis : FieldVisitor) :
    (VisitFields root vis).1 = derefRoot root
    ∧ (VisitFields root vis).2.dropLast.all
        (fun p => decide (vis p.1 p.2 ≠ VisitResult.VisitTerminate)) = true := by
  constructor
  · cases hd : derefRoot root <;> simp [VisitFields, hd]
  · cases hd : derefRoot root with
    | none => simp [VisitFields, hd]
    | some rv =>
      rw [List.all_eq_true]
      intro p hmem
      simp only [VisitFields, hd] at hmem
      rw [decide_eq_true_eq]
      have hspec := walkLoop_spec vis (stackSize [rv]) [rv] le_rfl
      cases hb : (walkLoop vis [rv]).2 with
      | false => exact hspec.1 hb p ((List.dropLast_sublist _).subset hmem)
      | true => exact hspec.2 hb p hmem

theorem perm_append_swap {α : Type} (a b c : List α) :
    List.Perm (a ++ (b ++ c)) (b ++ (a ++ c)) := by
  rw [← List.append_assoc, ← List.append_assoc]
  exact List.perm_append_comm.append_right c

/-- Under the always-continue visitor one field loop visits exactly the
exported fields, pushes exactly the exported anonymous field values, and
never terminates. -/
theorem fieldLoop_alwaysContinue : (fs : FieldList) →
    fieldLoop alwaysContinue fs = (fs.visitedAll, fs.pushesAll, false)
  | .nil => rfl
  | .cons f fv rest => by
    have ih := fieldLoop_alwaysContinue rest
    by_cases hp : f.pkgPath.length > 0
    · simp [fieldLoop, FieldList.visitedAll, FieldList.pushesAll, hp, ih]
    · by_cases ha : f.anonymous = true
      · simp [fieldLoop, alwaysContinue, FieldList.visitedAll, FieldList.pushesAll, hp, ha, ih]
      · simp [fieldLoop, alwaysContinue, FieldList.visitedAll, FieldList.pushesAll, hp, ha, ih]

theorem visitedAll_filter : (fs : FieldList) →
    fs.visitedAll.filter (fun p => !p.1.anonymous) = fs.immediateLeaves
  | .nil => rfl
  | .cons f fv rest => by
    have ih := visitedAll_filter rest
    by_cases hp : f.pkgPath.length > 0
    · simp [FieldList.visitedAll, FieldList.immediateLeaves, hp, ih]
    · by_cases ha : f.anonymous = true
      · simp [FieldList.visitedAll, FieldList.immediateLeaves, hp, ha, ih]
      · simp [FieldList.visitedAll, FieldList.immediateLeaves, hp, ha, ih]

theorem visitedAll_exported : (fs : FieldList) →
    ∀ p ∈ fs.visitedAll, p.1.pkgPath.length = 0
  | .nil => by simp [FieldList.visitedAll]
  | .cons f fv rest => by
    have ih := visitedAll_exported rest
    intro p hmem
    by_cases hp : f.pkgPath.length > 0
    · rw [FieldList.visitedAll, if_pos hp] at hmem
      exact ih p (by simpa using hmem)
    · rw [FieldList.visitedAll, if_neg hp] at hmem
      rcases List.mem_append.mp hmem with h1 | h2
      · have : p = (f, fv) := by simpa using h1
        rw [this]
        show f.pkgPath.length = 0
        omega
      · exact ih p h2

theorem leaves_fieldsOf : ∀ s : RVal, RVal.leaves s = FieldList.leaves s.fieldsOf := by
  intro s
  cases s with
  | leaf _ => rfl
  | ptr o => rfl
  | strct fs => rfl

/-- The recursively collected leaves of a field list are a permutation of
its immediate leaves followed by the leaves reachable through its exported
anonymous (embedded) fields. -/
theorem leaves_decompose : (fs : FieldList) →
    List.Perm (FieldList.leaves fs)
      (fs.immediateLeaves ++ ((fs.pushesAll.map RVal.leaves).flatten))
  | .nil => List.Perm.refl _
  | .cons f fv rest => by
    have ih := leaves_decompose rest
    by_cases hp : f.pkgPath.length > 0
    · simpa [FieldList.leaves, FieldList.immediateLeaves, FieldList.pushesAll, hp] using ih
    · by_cases ha : f.anonymous = true
      · simp only [FieldList.leaves, FieldList.immediateLeaves, FieldList.pushesAll,
          hp, ha, if_false, if_true, ite_false, ite_true, List.nil_append,
          List.singleton_append, List.map_cons, List.flatten_cons, List.map_nil,
          List.flatten_nil, List.append_nil, List.map_append, List.flatten_append,
          List.append_assoc]
        exact (ih.append_left _).trans (perm_append_swap _ _ _)
      · simp only [FieldList.leaves, FieldList.immediateLeaves, FieldList.pushesAll,
          hp, ha, if_false, if_true, ite_false, ite_true, List.nil_append,
          List.singleton_append, List.cons_append]
        exact ih.cons (f, fv)

/-- The full walk under the always-continue visitor: the non-anonymous
entries of the trace are a permutation of the leaves of every value on the
stack. -/
theorem walkLoop_continue_perm :
    ∀ (n : Nat) (stack : List RVal), stackSize stack ≤ n →
    List.Perm ((walkLoop alwaysContinue stack).1.filter (fun p => !p.1.anonymous))
      ((stack.map RVal.leaves).flatten) := by
  intro n
  induction n with
  | zero =>
    intro stack hsz
    cases stack with
    | nil => simp [walkLoop]
    | cons s rest =>
      exfalso
      have := rval_size_pos s
      simp [stackSize] at hsz
      omega
  | succ n ih =>
    intro stack hsz
    cases stack with
    | nil => simp [walkLoop]
    | cons s rest =>
      have hfl := fieldLoop_alwaysContinue s.fieldsOf
      have heq : walkLoop alwaysContinue (s :: rest)
          = (s.fieldsOf.visitedAll
              ++ (walkLoop alwaysContinue (s.fieldsOf.pushesAll.reverse ++ rest)).1,
            (walkLoop alwaysContinue (s.fieldsOf.pushesAll.reverse ++ rest)).2) := by
        simp [walkLoop, hfl]
      have hsz2 : stackSize (s.fieldsOf.pushesAll.reverse ++ rest) ≤ n := by
        have h1 := fieldLoop_pushes_size alwaysContinue s.fieldsOf
        rw [hfl] at h1
        have h2 := fieldsOf_size_lt s
        simp only [stackSize, List.map_append, List.sum_append, List.map_reverse,
          List.sum_reverse, List.map_cons, List.sum_cons] at hsz ⊢
        simp only [stackSize] at h1
        omega
      have ihr := ih (s.fieldsOf.pushesAll.reverse ++ rest) hsz2
      rw [heq]
      simp only [List.filter_append, List.map_cons, List.flatten_cons]
      rw [visitedAll_filter s.fieldsOf]
      have hstep : List.Perm
          ((walkLoop alwaysContinue (s.fieldsOf.pushesAll.reverse ++ rest)).1.filter
            (fun p => !p.1.anonymous))
          ((s.fieldsOf.pushesAll.map RVal.leaves).flatten
            ++ ((rest.map RVal.leaves).flatten)) := by
        refine ihr.trans ?_
        simp only [List.map_append, List.flatten_append, List.map_reverse]
        exact ((List.reverse_perm (s.fieldsOf.pushesAll.map RVal.leaves)).flatten).append_right _
      have hdec := (leaves_decompose s.fieldsOf).symm.append_right
        ((rest.map RVal.leaves).flatten)
      rw [List.append_assoc] at hdec
      have hfinal := (hstep.append_left s.fieldsOf.immediateLeaves).trans hdec
      rw [← leaves_fieldsOf s] at hfinal
      exact hfinal

theorem fieldLoop_exported (vis : FieldVisitor) : (fs : FieldList) →
    ∀ p ∈ (fieldLoop vis fs).1, p.1.pkgPath.length = 0
  | .nil => by simp [fieldLoop]
  | .cons f fv rest => by
    have ih := fieldLoop_exported vis rest
    intro p hmem
    by_cases hp : f.pkgPath.length > 0
    · rw [fieldLoop, if_pos hp] at hmem
      exact ih p hmem
    · by_cases ht : vis f fv = VisitResult.VisitTerminate
      · simp only [fieldLoop, if_neg hp, if_pos ht] at hmem
        have : p = (f, fv) := by simpa using hmem
        rw [this]
        show f.pkgPath.length = 0
        omega
      · simp only [fieldLoop, if_neg hp, if_neg ht] at hmem
        rcases List.mem_cons.mp hmem with h1 | h2
        · rw [h1]
          show f.pkgPath.length = 0
          omega
        · exact ih p h2

theorem walkLoop_exported (vis : FieldVisitor) :
    ∀ (n : Nat) (stack : List RVal), stackSize stack ≤ n →
    ∀ p ∈ (walkLoop vis stack).1, p.1.pkgPath.length = 0 := by
  intro n
  induction n with
  | zero =>
    intro stack hsz
    cases stack with
    | nil => simp [walkLoop]
    | cons s rest =>
      exfalso
      have := rval_size_pos s
      simp [stackSize] at hsz
      omega
  | succ n ih =>
    intro stack hsz
    cases stack with
    | nil => simp [walkLoop]
    | cons s rest =>
      intro p hmem
      by_cases hterm : (fieldLoop vis s.fieldsOf).2.2 = true
      · have heq : walkLoop vis (s :: rest) = ((fieldLoop vis s.fieldsOf).1, true) := by
          simp [walkLoop, hterm]
        rw [heq] at hmem
        exact fieldLoop_exported vis s.fieldsOf p hmem
      · have hterm2 : (fieldLoop vis s.fieldsOf).2.2 = false := by simpa using hterm
        have hsz2 : stackSize ((fieldLoop vis s.fieldsOf).2.1.reverse ++ rest) ≤ n := by
          have h1 := fieldLoop_pushes_size vis s.fieldsOf
          have h2 := fieldsOf_size_lt s
          simp only [stackSize, List.map_append, List.sum_append, List.map_reverse,
            List.sum_reverse, List.map_cons, List.sum_cons] at hsz ⊢
          simp only [stackSize] at h1
          omega
        have heq : walkLoop vis (s :: rest)
            = ((fieldLoop vis s.fieldsOf).1
                ++ (walkLoop vis ((fieldLoop vis s.fieldsOf).2.1.reverse ++ rest)).1,
              (walkLoop vis ((fieldLoop vis s.fieldsOf).2.1.reverse ++ rest)).2) := by
          simp [walkLoop, hterm2]
        rw [heq] at hmem
        rcases List.mem_append.mp (by simpa using hmem) with h1 | h2
        · exact fieldLoop_exported vis s.fieldsOf p h1
        · exact ih ((fieldLoop vis s.fieldsOf).2.1.reverse ++ rest) hsz2 p h2

/-- Claim C7: a full walk of a well-formed struct with the always-continue
visitor visits, among non-anonymous fields, exactly the exported leaf
fields of the struct plus all leaf fields transitively reachable through
its exported embedded structs (as a permutation of the recursively
collected leaf list), and visits zero unexported fields. -/
theorem c7_full_walk_visits_leaves (fs : FieldList)
    (_hwf : RVal.isStructWF (.strct fs) = true) :
    List.Perm
      ((VisitFields (.strct fs) alwaysContinue).2.filter (fun p => !p.1.anonymous))
      (FieldList.leaves fs)
    ∧ (VisitFields (.strct fs) alwaysContinue).2.all
        (fun p => decide (p.1.pkgPath.length = 0)) = true := by
  have hderef : derefRoot (.strct fs) = some (.strct fs) := rfl
  constructor
  · have hperm := walkLoop_continue_perm (stackSize [RVal.strct fs]) [RVal.strct fs] le_rfl
    simp only [VisitFields, hderef]
    simpa [RVal.leaves] using hperm
  · rw [List.all_eq_true]
    intro p hmem
    rw [decide_eq_true_eq]
    simp only [VisitFields, hderef] at hmem
    exact walkLoop_exported alwaysContinue (stackSize [RVal.strct fs]) [RVal.strct fs]
      le_rfl p hmem

/-- Witness for C7 on a struct with one exported leaf, one exported
embedded struct holding a leaf, and one unexported field. -/
theorem c7_witness :
    List.Perm
      ((VisitFields
          (.strct (.cons ⟨"A", "", false⟩ (.leaf ⟨1, false⟩)
            (.cons ⟨"E", "", true⟩ (.strct (.cons ⟨"C", "", false⟩ (.leaf ⟨2, false⟩) .nil))
              (.cons ⟨"x", "pkg", false⟩ (.leaf ⟨3, false⟩) .nil))))
          alwaysContinue).2.filter (fun p => !p.1.anonymous))
      (FieldList.leaves (.cons ⟨"A", "", false⟩ (.leaf ⟨1, false⟩)
        (.cons ⟨"E", "", true⟩ (.strct (.cons ⟨"C", "", false⟩ (.leaf ⟨2, false⟩) .nil))
          (.cons ⟨"x", "pkg", false⟩ (.leaf ⟨3, false⟩) .nil)))) :=
  (c7_full_walk_visits_leaves
    (.cons ⟨"A", "", false⟩ (.leaf ⟨1, false⟩)
      (.cons ⟨"E", "", true⟩ (.strct (.cons ⟨"C", "", false⟩ (.leaf ⟨2, false⟩) .nil))
        (.cons ⟨"x", "pkg", false⟩ (.leaf ⟨3, false⟩) .nil)))
    (by decide)).1

/-- Behavior of one dependency field loop with respect to halting: when the
loop did not halt every delivered Dependency got a true verdict; when it
halted, the trace is nonempty and only its last entry can have received
false. -/
theorem depFieldLoop_spec (vis : Dependency → Bool) (cty : Nat) : (fs : DepFieldList) →
    (((depFieldLoop vis cty fs).2.2 = false →
      ∀ d ∈ (depFieldLoop vis cty fs).1, vis d = true)
    ∧ ((depFieldLoop vis cty fs).2.2 = true → (depFieldLoop vis cty fs).1 ≠ [])
    ∧ ((depFieldLoop vis cty fs).2.2 = true →
      ∀ d ∈ (depFieldLoop vis cty fs).1.dropLast, vis d = true))
  | .nil => by
    refine ⟨?_, ?_, ?_⟩ <;> intro h <;> simp_all [depFieldLoop]
  | .cons f node rest => by
    have ih := depFieldLoop_spec vis cty rest
    by_cases hp : f.skipped = true
    · simpa [depFieldLoop, hp] using ih
    · cases node with
      | block b bfs =>
        simpa [depFieldLoop, hp] using ih
      | plain g =>
        by_cases hv : vis (newFieldDependency cty f.tag g) = true
        · refine ⟨?_, ?_, ?_⟩
          · intro h d hmem
            simp only [depFieldLoop, if_neg hp, if_pos hv] at h hmem
            rcases List.mem_cons.mp hmem with h1 | h2
            · rw [h1]; exact hv
            · exact ih.1 h d h2
          · intro h
            simp only [depFieldLoop, if_neg hp, if_pos hv] at h ⊢
            simp
          · intro h d hmem
            simp only [depFieldLoop, if_neg hp, if_pos hv] at h hmem
            have hne : (depFieldLoop vis cty rest).1 ≠ [] := ih.2.1 h
            rw [show (newFieldDependency cty f.tag g :: (depFieldLoop vis cty rest).1).dropLast
                = newFieldDependency cty f.tag g :: (depFieldLoop vis cty rest).1.dropLast from by
              cases hc : (depFieldLoop vis cty rest).1 with
              | nil => exact absurd hc hne
              | cons q qs => rfl] at hmem
            rcases List.mem_cons.mp hmem with h1 | h2
            · rw [h1]; exact hv
            · exact ih.2.2 h d h2
        · refine ⟨?_, ?_, ?_⟩
          · intro h; simp [depFieldLoop, hp, hv] at h
          · intro _; simp [depFieldLoop, hp, hv]
          · intro _; simp [depFieldLoop, hp, hv]

/-- Behavior of the dependency stack loop with respect to halting, by
strong induction on the stack measure. -/
theorem depStack_spec (vis : Dependency → Bool) :
    ∀ (n : Nat) (stack : List DepNode), depStackSize stack ≤ n →
    (((depStack vis stack).2 = false → ∀ d ∈ (depStack vis stack).1, vis d = true)
    ∧ ((depStack vis stack).2 = true →
      ∀ d ∈ (depStack vis stack).1.dropLast, vis d = true)) := by
  intro n
  induction n with
  | zero =>
    intro stack hsz
    cases stack with
    | nil => constructor <;> intro _ <;> simp [depStack]
    | cons s rest =>
      exfalso
      have := depNode_size_pos s
      simp [depStackSize] at hsz
      omega
  | succ n ih =>
    intro stack hsz
    cases stack with
    | nil => constructor <;> intro _ <;> simp [depStack]
    | cons s rest =>
      cases s with
      | plain g =>
        have heq : depStack vis (DepNode.plain g :: rest) = depStack vis rest := by
          simp [depStack]
        have hsz2 : depStackSize rest ≤ n := by
          have := depNode_size_pos (DepNode.plain g)
          simp only [depStackSize, List.map_cons, List.sum_cons] at hsz ⊢
          omega
        rw [heq]
        exact ih rest hsz2
      | block cty bfs =>
        by_cases hterm : (depFieldLoop vis cty bfs).2.2 = true
        · have heq : depStack vis (DepNode.block cty bfs :: rest)
              = ((depFieldLoop vis cty bfs).1, true) := by
            simp [depStack, hterm]
          constructor
          · intro hfalse; rw [heq] at hfalse; simp at hfalse
          · intro _
            rw [heq]
            exact (depFieldLoop_spec vis cty bfs).2.2 hterm
        · have hterm2 : (depFieldLoop vis cty bfs).2.2 = false := by simpa using hterm
          have hsz2 : depStackSize ((depFieldLoop vis cty bfs).2.1.reverse ++ rest) ≤ n := by
            have h1 := depFieldLoop_pushes_size vis cty bfs
            simp only [depStackSize, List.map_append, List.sum_append, List.map_reverse,
              List.sum_reverse, List.map_cons, List.sum_cons, DepNode.size] at hsz ⊢
            simp only [depStackSize] at h1
            omega
          have ihr := ih ((depFieldLoop vis cty bfs).2.1.reverse ++ rest) hsz2
          have heq : depStack vis (DepNode.block cty bfs :: rest)
              = ((depFieldLoop vis cty bfs).1
                  ++ (depStack vis ((depFieldLoop vis cty bfs).2.1.reverse ++ rest)).1,
                (depStack vis ((depFieldLoop vis cty bfs).2.1.reverse ++ rest)).2) := by
            simp [depStack, hterm2]
          constructor
          · intro hfalse d hmem
            rw [heq] at hfalse hmem
            simp only at hfalse
            rcases List.mem_append.mp (by simpa using hmem) with h1 | h2
            · exact (depFieldLoop_spec vis cty bfs).1 hterm2 d h1
            · exact ihr.1 hfalse d h2
          · intro htrue d hmem
            rw [heq] at htrue hmem
            simp only at htrue hmem
            rcases mem_dropLast_append d _ _ hmem with h1 | h2
            · exact (depFieldLoop_spec vis cty bfs).1 hterm2 d h1
            · exact ihr.2 htrue d h2

/-- Behavior of VisitDependencies over a full input list: when the visitor
never answered false, every delivered Dependency got a true verdict; when
it halted, only the last delivered Dependency can have received false. -/
theorem visitDeps_spec (vis : Dependency → Bool) : (deps : List DepNode) →
    (((VisitDependencies vis deps).2 = false →
      ∀ d ∈ (VisitDependencies vis deps).1, vis d = true)
    ∧ ((VisitDependencies vis deps).2 = true →
      ∀ d ∈ (VisitDependencies vis deps).1.dropLast, vis d = true))
  | [] => by
    constructor <;> intro h <;> simp_all [VisitDependencies]
  | DepNode.plain g :: rest => by
    have ih := visitDeps_spec vis rest
    by_cases hv : vis (nakedDependency g) = true
    · refine ⟨?_, ?_⟩
      · intro h d hmem
        simp only [VisitDependencies, if_pos hv] at h hmem
        rcases List.mem_cons.mp hmem with h1 | h2
        · rw [h1]; exact hv
        · exact ih.1 h d h2
      · intro h d hmem
        simp only [VisitDependencies, if_pos hv] at h hmem
        cases hc : (VisitDependencies vis rest).1 with
        | nil => rw [hc] at hmem; simp at hmem
        | cons q qs =>
          rw [show (nakedDependency g :: (VisitDependencies vis rest).1).dropLast
              = nakedDependency g :: (VisitDependencies vis rest).1.dropLast from by
            rw [hc]; rfl] at hmem
          rcases List.mem_cons.mp hmem with h1 | h2
          · rw [h1]; exact hv
          · exact ih.2 h d h2
    · refine ⟨?_, ?_⟩
      · intro h; simp [VisitDependencies, hv] at h
      · intro _; simp [VisitDependencies, hv]
  | DepNode.block cty bfs :: rest => by
    have ih := visitDeps_spec vis rest
    have hstack := depStack_spec vis (depStackSize [DepNode.block cty bfs])
      [DepNode.block cty bfs] le_rfl
    by_cases hhalt : (depStack vis [DepNode.block cty bfs]).2 = true
    · have heq : VisitDependencies vis (DepNode.block cty bfs :: rest)
          = ((depStack vis [DepNode.block cty bfs]).1, true) := by
        simp [VisitDependencies, hhalt]
      refine ⟨?_, ?_⟩
      · intro h; rw [heq] at h; simp at h
      · intro _
        rw [heq]
        exact hstack.2 hhalt
    · have hhalt2 : (depStack vis [DepNode.block cty bfs]).2 = false := by simpa using hhalt
      have heq : VisitDependencies vis (DepNode.block cty bfs :: rest)
          = ((depStack vis [DepNode.block cty bfs]).1 ++ (VisitDependencies vis rest).1,
            (VisitDependencies vis rest).2) := by
        simp [VisitDependencies, hhalt2]
      refine ⟨?_, ?_⟩
      · intro h d hmem
        rw [heq] at h hmem
        simp only at h
        rcases List.mem_append.mp (by simpa using hmem) with h1 | h2
        · exact hstack.1 hhalt2 d h1
        · exact ih.1 h d h2
      · intro h d hmem
        rw [heq] at h hmem
        simp only at h hmem
        rcases mem_dropLast_append d _ _ hmem with h1 | h2
        · exact hstack.1 hhalt2 d h1
        · exact ih.2 h d h2

/-- Claim C5: for every input list and visitor, the instant the visitor
returns false for some Dependency no further Dependency is delivered —
across the remaining fields of the current input and across all remaining
inputs: in the global delivery trace, every entry except possibly the last
received a true verdict. -/
theorem c5_visitor_false_halts_globally (vis : Dependency → Bool) (deps : List DepNode) :
    (VisitDependencies vis deps).1.dropLast.all vis = true := by
  rw [List.all_eq_true]
  intro d hmem
  cases hb : (VisitDependencies vis deps).2 with
  | false => exact (visitDeps_spec vis deps).1 hb d ((List.dropLast_sublist _).subset hmem)
  | true => exact (visitDeps_spec vis deps).2 hb d hmem
